import Mathlib

/-!
Verification of `src/probability.rs` from the libNLTK repository.

The Rust `FreqDist` wraps a `Counter<T, usize>` (a hash map from samples to
counts).  We embed the counter as an association list with pairwise distinct
keys; hash-map iteration order is unspecified, and none of the properties
below depend on order.  Floating-point values (`f32`/`f64`) are embedded as
rationals where the code only does field arithmetic and comparisons, and as
real numbers where logarithms are involved.  Fallible operations (Rust
panics: `unwrap`, `todo!`, out-of-range `gen_range`, `usize` underflow)
are embedded as `Option`-returning functions where `none` marks the panic.
-/

/-- Embedding of `counter::Counter<T, usize>`: an association list from
samples to counts.  The construction below keeps keys pairwise distinct,
mirroring the hash map. -/
abbrev Counter (T : Type) := List (T × Nat)

/-- The keys of the counter, as in `FreqDist::list_keys`
(`self.counter.keys().collect()`). -/
def FreqDist.list_keys {T : Type} (c : Counter T) : List T :=
  c.map Prod.fst

/-- One pass of the loop body of `FreqDist::init`:
`let val = self.counter.entry(key).or_insert_with(|| 0); *val += 1;` —
if the key is present its count is incremented, otherwise it is inserted
with count 1. -/
def FreqDist.incr {T : Type} [DecidableEq T] : Counter T → T → Counter T
  | [], k => [(k, 1)]
  | (a, v) :: rest, k =>
      if a = k then (a, v + 1) :: rest else (a, v) :: FreqDist.incr rest k

/-- Embedding of `FreqDist::init`: fold the loop body over the sample list. -/
def FreqDist.init {T : Type} [DecidableEq T] (c : Counter T) (l : List T) :
    Counter T :=
  l.foldl FreqDist.incr c

/-- Embedding of `FreqDist::N`: `self.counter.values().sum()`. -/
def FreqDist.N {T : Type} (c : Counter T) : Nat :=
  (c.map Prod.snd).sum

/-- Embedding of `FreqDist::B`: `self.counter.len()`, the number of keys. -/
def FreqDist.B {T : Type} (c : Counter T) : Nat :=
  c.length

/-- The count stored for a sample (hash-map lookup, 0 if absent). -/
def FreqDist.countOf {T : Type} [DecidableEq T] : Counter T → T → Nat
  | [], _ => 0
  | (a, v) :: rest, s => if a = s then v else FreqDist.countOf rest s

/-- Embedding of `FreqDist::hapaxes`:
`self.counter.iter().filter(|(_, &v)| v == 1).map(|(&k, _)| k).collect()`. -/
def FreqDist.hapaxes {T : Type} (c : Counter T) : List T :=
  (c.filter (fun p => p.2 == 1)).map Prod.fst

/-- The word list of the spec example. -/
def fruitWords : List String :=
  ["apple", "banana", "apple", "apple", "pineapple"]

/-- The frequency distribution built from the spec example. -/
def fruitFD : Counter String :=
  FreqDist.init [] fruitWords

-- Invariants of `incr` and `init` used by several claims.

theorem FreqDist.N_incr {T : Type} [DecidableEq T] (c : Counter T) (k : T) :
    FreqDist.N (FreqDist.incr c k) = FreqDist.N c + 1 := by
  induction c with
  | nil => simp [FreqDist.incr, FreqDist.N]
  | cons p rest ih =>
    obtain ⟨a, v⟩ := p
    by_cases hak : a = k
    · simp [FreqDist.incr, hak, FreqDist.N]
      omega
    · simp only [FreqDist.incr, if_neg hak, FreqDist.N, List.map_cons,
        List.sum_cons] at *
      omega

theorem FreqDist.keys_incr_toFinset {T : Type} [DecidableEq T]
    (c : Counter T) (k : T) :
    (FreqDist.list_keys (FreqDist.incr c k)).toFinset =
      insert k (FreqDist.list_keys c).toFinset := by
  induction c with
  | nil => simp [FreqDist.incr, FreqDist.list_keys]
  | cons p rest ih =>
    obtain ⟨a, v⟩ := p
    by_cases hak : a = k
    · subst hak
      simp [FreqDist.incr, FreqDist.list_keys]
    · simp only [FreqDist.incr, if_neg hak, FreqDist.list_keys, List.map_cons,
        List.toFinset_cons] at *
      rw [ih, Finset.Insert.comm]

theorem FreqDist.mem_keys_incr {T : Type} [DecidableEq T]
    (c : Counter T) (k x : T) :
    x ∈ FreqDist.list_keys (FreqDist.incr c k) ↔
      x = k ∨ x ∈ FreqDist.list_keys c := by
  have h := FreqDist.keys_incr_toFinset c k
  have hx := congrArg (fun s => x ∈ s) h
  simpa using hx

theorem FreqDist.nodup_keys_incr {T : Type} [DecidableEq T]
    (c : Counter T) (k : T) (h : (FreqDist.list_keys c).Nodup) :
    (FreqDist.list_keys (FreqDist.incr c k)).Nodup := by
  induction c with
  | nil => simp [FreqDist.incr, FreqDist.list_keys]
  | cons p rest ih =>
    obtain ⟨a, v⟩ := p
    simp only [FreqDist.list_keys, List.map_cons, List.nodup_cons] at h
    by_cases hak : a = k
    · simp only [FreqDist.incr, if_pos hak, FreqDist.list_keys, List.map_cons,
        List.nodup_cons]
      exact h
    · simp only [FreqDist.incr, if_neg hak, FreqDist.list_keys, List.map_cons,
        List.nodup_cons]
      refine ⟨?_, ih h.2⟩
      intro hmem
      rcases (FreqDist.mem_keys_incr rest k a).mp hmem with rfl | hmem2
      · exact hak rfl
      · exact h.1 hmem2

theorem FreqDist.N_init {T : Type} [DecidableEq T] (c : Counter T)
    (l : List T) :
    FreqDist.N (FreqDist.init c l) = FreqDist.N c + l.length := by
  induction l generalizing c with
  | nil => simp [FreqDist.init]
  | cons a l ih =>
    simp only [FreqDist.init, List.foldl_cons, List.length_cons] at *
    rw [ih, FreqDist.N_incr]
    omega

theorem FreqDist.keys_init_toFinset {T : Type} [DecidableEq T]
    (c : Counter T) (l : List T) :
    (FreqDist.list_keys (FreqDist.init c l)).toFinset =
      (FreqDist.list_keys c).toFinset ∪ l.toFinset := by
  induction l generalizing c with
  | nil => simp [FreqDist.init]
  | cons a l ih =>
    simp only [FreqDist.init, List.foldl_cons, List.toFinset_cons] at *
    rw [ih, FreqDist.keys_incr_toFinset]
    rw [Finset.insert_union, Finset.union_insert]

theorem FreqDist.nodup_keys_init {T : Type} [DecidableEq T] (c : Counter T)
    (l : List T) (h : (FreqDist.list_keys c).Nodup) :
    (FreqDist.list_keys (FreqDist.init c l)).Nodup := by
  induction l generalizing c with
  | nil => simpa [FreqDist.init] using h
  | cons a l ih =>
    simp only [FreqDist.init, List.foldl_cons] at *
    exact ih _ (FreqDist.nodup_keys_incr c a h)

/-- C2: feeding any finite sample sequence into a fresh `FreqDist` via
`init` makes `N()` the length of the sequence and `B()` the number of
distinct samples; in particular the spec example gives `N() = 5` and
`B() = 3`. -/
theorem freqdist_count_invariant :
    (∀ (T : Type) [DecidableEq T] (l : List T),
        FreqDist.N (FreqDist.init [] l) = l.length ∧
        FreqDist.B (FreqDist.init [] l) = l.toFinset.card) ∧
    FreqDist.N fruitFD = 5 ∧ FreqDist.B fruitFD = 3 := by
  refine ⟨?_, by decide, by decide⟩
  intro T _ l
  constructor
  · simpa [FreqDist.N] using FreqDist.N_init ([] : Counter T) l
  · have hnodup : (FreqDist.list_keys (FreqDist.init ([] : Counter T) l)).Nodup :=
      FreqDist.nodup_keys_init [] l (by simp [FreqDist.list_keys])
    have hlen : (FreqDist.list_keys (FreqDist.init ([] : Counter T) l)).length =
        FreqDist.B (FreqDist.init [] l) := by
      simp [FreqDist.list_keys, FreqDist.B]
    have hcard := List.toFinset_card_of_nodup hnodup
    rw [FreqDist.keys_init_toFinset] at hcard
    simp only [FreqDist.list_keys, List.map_nil, List.toFinset_nil,
      Finset.empty_union] at hcard
    simpa [FreqDist.B, List.length_map] using hcard.symm

theorem FreqDist.hapaxes_cons {T : Type} (a : T) (v : Nat) (rest : Counter T) :
    FreqDist.hapaxes ((a, v) :: rest) =
      if v = 1 then a :: FreqDist.hapaxes rest else FreqDist.hapaxes rest := by
  by_cases hv : v = 1 <;> simp [FreqDist.hapaxes, List.filter_cons, hv]

theorem FreqDist.mem_hapaxes_keys {T : Type} (c : Counter T) (s : T)
    (h : s ∈ FreqDist.hapaxes c) : s ∈ FreqDist.list_keys c := by
  simp only [FreqDist.hapaxes, List.mem_map, List.mem_filter] at h
  obtain ⟨p, ⟨hp, _⟩, rfl⟩ := h
  exact List.mem_map_of_mem _ hp

/-- C9: a sample is listed by `hapaxes()` exactly when its stored count
is 1 (for any counter with distinct keys, as every `FreqDist` has). -/
theorem freqdist_hapaxes_iff {T : Type} [DecidableEq T] (c : Counter T)
    (hnd : (FreqDist.list_keys c).Nodup) (s : T) :
    s ∈ FreqDist.hapaxes c ↔ FreqDist.countOf c s = 1 := by
  induction c with
  | nil => simp [FreqDist.hapaxes, FreqDist.countOf]
  | cons p rest ih =>
    obtain ⟨a, v⟩ := p
    simp only [FreqDist.list_keys, List.map_cons, List.nodup_cons] at hnd
    have ihr := ih hnd.2
    rw [FreqDist.hapaxes_cons]
    by_cases has : a = s
    · subst has
      have hnot : a ∉ FreqDist.hapaxes rest := fun hmem =>
        hnd.1 (FreqDist.mem_hapaxes_keys rest a hmem)
      by_cases hv : v = 1
      · simp [hv, FreqDist.countOf]
      · rw [if_neg hv]
        simp only [FreqDist.countOf, if_pos rfl]
        exact iff_of_false hnot hv
    · have hcnt : FreqDist.countOf ((a, v) :: rest) s = FreqDist.countOf rest s := by
        simp [FreqDist.countOf, has]
      rw [hcnt]
      by_cases hv : v = 1
      · rw [if_pos hv]
        simp only [List.mem_cons]
        constructor
        · rintro (rfl | hmem)
          · exact absurd rfl has
          · exact ihr.mp hmem
        · intro h
          exact Or.inr (ihr.mpr h)
      · rw [if_neg hv]
        exact ihr

/-- Witness for C9 on the spec example and the sample "banana". -/
theorem freqdist_hapaxes_iff_witness :
    (FreqDist.list_keys fruitFD).Nodup ∧
    ("banana" ∈ FreqDist.hapaxes fruitFD ↔
      FreqDist.countOf fruitFD "banana" = 1) :=
  ⟨by decide, freqdist_hapaxes_iff fruitFD (by decide) "banana"⟩

/-- Embedding of `FreqDist::r_Nr`:
`let _bin = bin.into().unwrap_or_else(|| self.B()); let limit = _bin - self.B();`
then `self.counter.iter().filter(|(_, &v)| v == limit).collect()`.  The
`usize` subtraction underflows when `_bin < B()`; `none` marks that panic. -/
def FreqDist.r_Nr {T : Type} (c : Counter T) (bin : Option Nat) :
    Option (Counter T) :=
  let b := bin.getD (FreqDist.B c)
  if b < FreqDist.B c then none
  else some (c.filter (fun p => p.2 == b - FreqDist.B c))

/-- C7: on the spec example (`B() = 3`), `r_Nr(4)` filters for counts equal
to `4 - B() = 1` and returns the two count-1 entries, although no stored
pair has count 4 — so it does not return the pairs whose count equals the
argument. -/
theorem freqdist_r_Nr_wrong_bin :
    FreqDist.r_Nr fruitFD (some 4) =
      some [("banana", 1), ("pineapple", 1)] ∧
    fruitFD.filter (fun p => p.2 == 4) = [] := by
  constructor <;> decide

/-- Embedding of `FreqDist::freq`: the body is `todo!()`, which panics
unconditionally (the Rust signature does not even take a sample argument);
`none` marks the panic. -/
def FreqDist.freq {T : Type} (_c : Counter T) : Option ℚ :=
  none

/-- Embedding of `FreqDist::max`: the body is `todo!()`, which panics
unconditionally before producing the documented `Option<T>` value; `none`
marks the panic. -/
def FreqDist.max {T : Type} (_c : Counter T) : Option (Option T) :=
  none

/-- C5: `freq` never returns a value: its body is `todo!()`, so every call
— including on an empty distribution — panics instead of returning
`count(sample)/N()` or 0. -/
theorem freqdist_freq_panics :
    ∀ (T : Type) (c : Counter T), FreqDist.freq c = none :=
  fun _ _ => rfl

/-- C6: `max` never returns a value: its body is `todo!()`, so every call
panics instead of returning a maximising sample (or `None` when empty). -/
theorem freqdist_max_panics :
    ∀ (T : Type) (c : Counter T), FreqDist.max c = none :=
  fun _ _ => rfl

/-- Embedding of `UniformProbDist`: the stored `sampleset` vector. -/
structure UniformProbDist (T : Type) where
  sampleset : List T

/-- Embedding of `UniformProbDist::init`: every element of `samples` is
pushed onto `sampleset` — duplicates are not collapsed. -/
def UniformProbDist.init {T : Type} (d : UniformProbDist T)
    (samples : List T) : UniformProbDist T :=
  ⟨d.sampleset ++ samples⟩

/-- Embedding of `UniformProbDist::prob`: `1.0 / len` when `sampleset`
contains the sample, else 0; the `f32` arithmetic is modelled over `ℚ`. -/
def UniformProbDist.prob {T : Type} [DecidableEq T] (d : UniformProbDist T)
    (sample : T) : ℚ :=
  if sample ∈ d.sampleset then 1 / (d.sampleset.length : ℚ) else 0

/-- Embedding of `UniformProbDist::samples`: `self.sampleset.clone()`. -/
def UniformProbDist.samples {T : Type} (d : UniformProbDist T) : List T :=
  d.sampleset

/-- Embedding of `UniformProbDist::max`:
`*self.sampleset.get(0).unwrap()`; `none` marks the `unwrap` panic when
`get(0)` finds nothing. -/
def UniformProbDist.max {T : Type} (d : UniformProbDist T) : Option T :=
  d.sampleset.head?

/-- The sampling loop of the default `ProbDistI::generate`: subtract each
sample's probability from `p` and return the sample once `p` is ≤ 0. -/
def ProbDistI.generateLoop {T : Type} (prob : T → ℚ) : ℚ → List T → Option T
  | _, [] => none
  | p, s :: rest =>
      if p - prob s ≤ 0 then some s
      else ProbDistI.generateLoop prob (p - prob s) rest

/-- Embedding of the default `ProbDistI::generate`: run the sampling loop
over `samples()` with the random draw `p`; if the loop falls through, index
`samples()` at `rng.gen_range(0..len)` — modelled as `i % len` for an
arbitrary draw `i` — and `gen_range(0..0)` panics (`none`) when the list
is empty. -/
def ProbDistI.generate {T : Type} (prob : T → ℚ) (samples : List T) (p : ℚ)
    (i : ℕ) : Option T :=
  match ProbDistI.generateLoop prob p samples with
  | some s => some s
  | none =>
      if samples.length = 0 then none else samples.get? (i % samples.length)

/-- C3: `init` does not collapse duplicates. Built from `[0, 0]` — one
distinct sample, so the claim demands probability 1 — the distribution
assigns `prob 0 = 1/2`, and the probabilities summed over the (deduplicated)
support give `1/2 ≠ 1`. -/
theorem uniform_prob_duplicates :
    (UniformProbDist.init (⟨[]⟩ : UniformProbDist ℕ) [0, 0]).prob 0 = 1 / 2 ∧
    (((UniformProbDist.init (⟨[]⟩ : UniformProbDist ℕ) [0, 0]).sampleset.dedup).map
        ((UniformProbDist.init (⟨[]⟩ : UniformProbDist ℕ) [0, 0]).prob)).sum ≠ 1 := by
  have hd : (UniformProbDist.init (⟨[]⟩ : UniformProbDist ℕ) [0, 0]).sampleset.dedup
      = [0] := by
    decide
  have hp : (UniformProbDist.init (⟨[]⟩ : UniformProbDist ℕ) [0, 0]).prob 0
      = 1 / 2 := by
    norm_num [UniformProbDist.init, UniformProbDist.prob]
  refine ⟨hp, ?_⟩
  rw [hd]
  simp only [List.map_cons, List.map_nil, List.sum_cons, List.sum_nil, hp]
  norm_num

/-- C4: on an empty support, `prob` is 0 everywhere as claimed, but
`max()` and `generate()` hit a panic (`get(0).unwrap()` on `None`, and
`gen_range(0..0)` on an empty range) instead of returning an explicit
"no sample" value. -/
theorem uniform_empty_behaviour :
    (∀ s : ℕ, (⟨[]⟩ : UniformProbDist ℕ).prob s = 0) ∧
    (⟨[]⟩ : UniformProbDist ℕ).max = none ∧
    (∀ (p : ℚ) (i : ℕ),
        ProbDistI.generate (⟨[]⟩ : UniformProbDist ℕ).prob
          (⟨[]⟩ : UniformProbDist ℕ).samples p i = none) := by
  refine ⟨fun s => ?_, rfl, fun p i => rfl⟩
  simp [UniformProbDist.prob]

/-- Embedding of the default `ProbDistI::logprob`: `Some(f32::log2 p)` when
`p != 0.0`, else `None`; the `f32` probability is a rational and its base-2
logarithm is taken in `ℝ`. -/
noncomputable def ProbDistI.logprob {T : Type} (prob : T → ℚ) (s : T) :
    Option ℝ :=
  if prob s ≠ 0 then some (Real.logb 2 ((prob s : ℚ) : ℝ)) else none

/-- C8: the default `logprob` returns `some (log2 (prob s))` whenever
`prob s > 0`, and `none` whenever `prob s = 0`. -/
theorem logprob_consistency {T : Type} (prob : T → ℚ) (s : T) :
    (0 < prob s →
      ProbDistI.logprob prob s = some (Real.logb 2 ((prob s : ℚ) : ℝ))) ∧
    (prob s = 0 → ProbDistI.logprob prob s = none) := by
  constructor
  · intro h
    unfold ProbDistI.logprob
    rw [if_pos h.ne']
  · intro h
    unfold ProbDistI.logprob
    rw [if_neg (by simp [h])]

/-- The one-sample uniform distribution used as a witness input. -/
def unitU : UniformProbDist ℕ := ⟨[0]⟩

/-- Witness for C8: for the one-sample uniform distribution, the contained
sample has positive probability and a `some` log-probability, and an absent
sample has probability 0 and log-probability `none`. -/
theorem logprob_consistency_witness :
    ((0 : ℚ) < unitU.prob 0 ∧
      ProbDistI.logprob unitU.prob 0 =
        some (Real.logb 2 ((unitU.prob 0 : ℚ) : ℝ))) ∧
    (unitU.prob 1 = 0 ∧ ProbDistI.logprob unitU.prob 1 = none) := by
  have h0 : (0 : ℚ) < unitU.prob 0 := by
    norm_num [unitU, UniformProbDist.prob]
  have h1 : unitU.prob 1 = 0 := by
    norm_num [unitU, UniformProbDist.prob]
  exact ⟨⟨h0, (logprob_consistency unitU.prob 0).1 h0⟩,
    ⟨h1, (logprob_consistency unitU.prob 1).2 h1⟩⟩

/-- Embedding of `_add_logs_max_diff()`: `f64::log(100.0, 2.0)`. -/
noncomputable def _add_logs_max_diff : ℝ := Real.logb 2 100

/-- Embedding of `add_log(logx, logy)`: return `logy` when
`logx < logy + _add_logs_max_diff()`, else `logx` when
`logy < logx + _add_logs_max_diff()`, else
`base + log2(2*(logx-base) + 2*(logy-base))` with `base = min logx logy`;
`f64` values are modelled as reals. -/
noncomputable def add_log (logx logy : ℝ) : ℝ :=
  if logx < logy + _add_logs_max_diff then logy
  else if logy < logx + _add_logs_max_diff then logx
  else
    min logx logy +
      Real.logb 2 (2 * (logx - min logx logy) + 2 * (logy - min logx logy))

theorem add_log_max_diff_pos : 0 < _add_logs_max_diff :=
  Real.logb_pos (by norm_num) (by norm_num)

/-- C1: `add_log (log2 8) (log2 8)` takes the first branch — since
`log2 8 < log2 8 + log2 100` — and returns `log2 8`, which is not
`log2 16 = log2 (8 + 8)`. -/
theorem add_log_log8_log8 :
    add_log (Real.logb 2 8) (Real.logb 2 8) = Real.logb 2 8 ∧
    Real.logb 2 8 ≠ Real.logb 2 16 := by
  constructor
  · have h : Real.logb 2 8 < Real.logb 2 8 + _add_logs_max_diff := by
      have := add_log_max_diff_pos
      linarith
    unfold add_log
    rw [if_pos h]
  · have h : Real.logb 2 8 < Real.logb 2 16 :=
      Real.logb_lt_logb (by norm_num) (by norm_num) (by norm_num)
    exact ne_of_lt h


/-- A model of `f64` that keeps the IEEE special values `±∞` and `NaN`;
finite values carry an exact real (rounding is not modelled). -/
inductive F64 : Type
  | neginf : F64
  | finite : ℝ → F64
  | posinf : F64
  | nan : F64

/-- IEEE `f64` addition on the model: `NaN` propagates, opposite infinities
give `NaN`, an infinity absorbs finite values, finite addition is exact. -/
def F64.add : F64 → F64 → F64
  | nan, _ => nan
  | _, nan => nan
  | posinf, neginf => nan
  | neginf, posinf => nan
  | posinf, _ => posinf
  | _, posinf => posinf
  | neginf, _ => neginf
  | _, neginf => neginf
  | finite x, finite y => finite (x + y)

/-- IEEE `f64` negation on the model. -/
def F64.neg : F64 → F64
  | nan => nan
  | posinf => neginf
  | neginf => posinf
  | finite x => finite (-x)

/-- IEEE `f64` subtraction on the model (`a - b = a + (-b)` holds exactly
in IEEE, including the `∞ - ∞ = NaN` case). -/
def F64.sub (a b : F64) : F64 :=
  F64.add a (F64.neg b)

/-- IEEE `f64` comparison `<` on the model: every comparison involving
`NaN` is false, `-∞ < finite < +∞`, and an infinity is not below itself. -/
noncomputable def F64.lt : F64 → F64 → Bool
  | nan, _ => false
  | _, nan => false
  | neginf, neginf => false
  | neginf, _ => true
  | _, neginf => false
  | posinf, _ => false
  | _, posinf => true
  | finite x, finite y => decide (x < y)

/-- `f64::min` on the model: with no `NaN` involved, the smaller operand
(`min(+∞, +∞) = +∞`); if one operand is `NaN`, the other is returned. -/
noncomputable def F64.min : F64 → F64 → F64
  | nan, b => b
  | a, nan => a
  | a, b => if F64.lt a b then a else b

/-- Multiplication by the constant `2.0` on the model (`2_f64 * _` in the
third branch): `NaN` propagates and infinities keep their sign. -/
def F64.twoMul : F64 → F64
  | nan => nan
  | posinf => posinf
  | neginf => neginf
  | finite x => finite (2 * x)

/-- `f64::log(_, 2.0)` on the model: `NaN` for `NaN` or negative arguments
(including `-∞`), `+∞` for `+∞`, `-∞` at zero, and the exact base-2
logarithm on positive finite values. -/
noncomputable def F64.log2 : F64 → F64
  | nan => nan
  | posinf => posinf
  | neginf => nan
  | finite x =>
      if 0 < x then finite (Real.logb 2 x)
      else if x = 0 then neginf else nan

/-- `_add_logs_max_diff()` in the `f64` model: the finite value `log2 100`. -/
noncomputable def F64.maxDiff : F64 :=
  F64.finite (Real.logb 2 100)

/-- Embedding of `add_log` over the `f64` model with IEEE special values:
the same three branches as the Rust, with `+`, `<`, `min`, `-`, `2 *` and
`log2` interpreted by the IEEE operations above (finite arithmetic exact). -/
noncomputable def add_logF (logx logy : F64) : F64 :=
  if F64.lt logx (F64.add logy F64.maxDiff) then logy
  else if F64.lt logy (F64.add logx F64.maxDiff) then logx
  else
    let base := F64.min logx logy
    F64.add base
      (F64.log2 (F64.add (F64.twoMul (F64.sub logx base))
        (F64.twoMul (F64.sub logy base))))

/-- C10 counterexample: at the non-NaN input pair `(+∞, +∞)` both guards
fail (`+∞ < +∞ + log2 100` is false in IEEE comparison), the "unreachable"
third branch runs, `logx - base` is `∞ - ∞ = NaN`, and `add_log` returns
`NaN` — which is not one of its two arguments. -/
theorem add_logF_posinf_not_argument :
    add_logF F64.posinf F64.posinf = F64.nan ∧ F64.nan ≠ F64.posinf := by
  constructor
  · rfl
  · intro h
    exact F64.noConfusion h

/-- C10 amended: for finite inputs — where the model's exact arithmetic
matches the claim's premises — `add_log` does return one of its arguments:
the second when `logx < logy + log2 100`, otherwise the first; only
non-finite inputs reach the third branch. -/
theorem add_logF_finite_returns_argument (x y : ℝ) :
    (x < y + Real.logb 2 100 →
      add_logF (F64.finite x) (F64.finite y) = F64.finite y) ∧
    (¬ x < y + Real.logb 2 100 →
      add_logF (F64.finite x) (F64.finite y) = F64.finite x) := by
  constructor
  · intro h
    have hlt : F64.lt (F64.finite x) (F64.add (F64.finite y) F64.maxDiff)
        = true := by
      simp only [F64.add, F64.maxDiff, F64.lt, decide_eq_true_eq]
      exact h
    unfold add_logF
    rw [if_pos hlt]
  · intro h
    have hc : (0 : ℝ) < Real.logb 2 100 :=
      Real.logb_pos (by norm_num) (by norm_num)
    have hlt1 : ¬ (F64.lt (F64.finite x) (F64.add (F64.finite y) F64.maxDiff)
        = true) := by
      simp only [F64.add, F64.maxDiff, F64.lt, decide_eq_true_eq]
      exact h
    have h2 : y < x + Real.logb 2 100 := by
      push_neg at h
      linarith
    have hlt2 : F64.lt (F64.finite y) (F64.add (F64.finite x) F64.maxDiff)
        = true := by
      simp only [F64.add, F64.maxDiff, F64.lt, decide_eq_true_eq]
      exact h2
    unfold add_logF
    rw [if_neg hlt1, if_pos hlt2]

/-- Witness for the amended C10: at `(0, 0)` the first guard holds and the
second argument is returned; at `(log2 100 + 1, 0)` the first guard fails
and the first argument is returned. -/
theorem add_logF_finite_returns_argument_witness :
    ((0 : ℝ) < 0 + Real.logb 2 100 ∧
      add_logF (F64.finite 0) (F64.finite 0) = F64.finite 0) ∧
    (¬ (Real.logb 2 100 + 1 < 0 + Real.logb 2 100) ∧
      add_logF (F64.finite (Real.logb 2 100 + 1)) (F64.finite 0) =
        F64.finite (Real.logb 2 100 + 1)) := by
  have hc : (0 : ℝ) < Real.logb 2 100 :=
    Real.logb_pos (by norm_num) (by norm_num)
  have h1 : (0 : ℝ) < 0 + Real.logb 2 100 := by linarith
  have h2 : ¬ (Real.logb 2 100 + 1 < 0 + Real.logb 2 100) := by
    intro h
    linarith
  exact ⟨⟨h1, (add_logF_finite_returns_argument 0 0).1 h1⟩,
    ⟨h2, (add_logF_finite_returns_argument (Real.logb 2 100 + 1) 0).2 h2⟩⟩
